import Mathlib

/-!
Verification of the UNALIGNED PER codec of this repository
(`src/protocol/per/unaligned/mod.rs`) against its natural-language
specification.

The codec layer is generic over the `BitRead` / `BitWrite` traits; the
`BitBuffer` implementation of those traits is not part of the sources under
verification, so the bit-level substrate is modelled from the spec (section
4.1): a bit stream is a `List Bool`, writers append bits at the end
(MSB-first within each emitted field), readers consume bits from the front.
Machine integers (`u64` / `i64` / `u8`) are modelled as `Nat` / `Int` with
explicit wrap-around (`% 2 ^ 64`, two's complement) exactly where the Rust
release-mode semantics wraps.
-/

namespace Asn1rs

/-- Error kinds of the PER codec (`ErrorKind` in `src/protocol/per`).
Only the constructors reachable from the functions embedded here are
modelled; integer payloads mirror the Rust field types (`u64` as `Nat`,
`i64` as `Int`). -/
inductive Err where
  | EndOfStream : Err
  | BitLenNotInRange : Nat → Nat → Nat → Err
  | ValueNotInRange : Int → Int → Int → Err
  | SizeNotInRange : Nat → Nat → Nat → Err
  | LengthDeterminantExceedsLimit : Nat → Nat → Err
  | InvalidChoiceIndex : Nat → Nat → Err
  deriving DecidableEq, Repr

def BYTE_LEN : Nat := 8

def FRAGMENT_SIZE : Nat := 16 * 1024

def MAX_FRAGMENTS : Nat := 4

def MIN_FRAGMENT_SIZE : Nat := FRAGMENT_SIZE

def MAX_FRAGMENTS_SIZE : Nat := FRAGMENT_SIZE * MAX_FRAGMENTS

def LENGTH_127 : Nat := 127

def LENGTH_16K : Nat := 16 * 1024

def LENGTH_64K : Nat := 64 * 1024

def SMALL_NON_NEGATIVE_NUMBER : Nat := 64

/-- `2 ^ 64`, the modulus of `u64` arithmetic. -/
def U64_MOD : Nat := 2 ^ 64

/-- `i64::MAX as u64`, the default used for absent upper bounds. -/
def i64_max_u : Nat := 2 ^ 63 - 1

/-- Wrapping `u64` subtraction (Rust release-mode `-` on `u64`);
both arguments are `u64` values, i.e. `< 2 ^ 64`. -/
def u64_wrapping_sub (a b : Nat) : Nat := (a + U64_MOD - b) % U64_MOD

/-- Reduce an integer to the `i64` value with the same 64-bit two's
complement pattern (Rust release-mode wrap-around). -/
def wrap_i64 (x : Int) : Int := (x + 2 ^ 63) % 2 ^ 64 - 2 ^ 63

/-- Reinterpret a `u64` bit pattern as an `i64`
(`u64 as i64` / `i64::from_be_bytes`). -/
def i64_from_pattern (p : Nat) : Int :=
  if p < 2 ^ 63 then (p : Int) else (p : Int) - 2 ^ 64

/-- Number of significant binary digits of `n`, computed with an explicit
fuel so that it reduces in the kernel; `bitLenAux fuel n = Nat.size n`
whenever `n ≤ fuel`. -/
def bitLenAux : Nat → Nat → Nat
  | 0, _ => 0
  | fuel + 1, n => if n = 0 then 0 else bitLenAux fuel (n / 2) + 1

def bitLen (n : Nat) : Nat := bitLenAux n n

/-- `u64::leading_zeros` of a `u64` value (`< 2 ^ 64`). -/
def leadingZeros64 (x : Nat) : Nat := 64 - bitLen x

/-- `i64::leading_zeros` applied to a non-negative `i64`. -/
def i64_leading_zeros (v : Int) : Nat := leadingZeros64 v.toNat

/-- `i64::leading_ones` applied to a negative `i64`: the leading ones of
the two's complement pattern of `v` are the leading zeros of its bitwise
complement, whose pattern is the natural number `-v - 1`. -/
def i64_leading_ones (v : Int) : Nat := leadingZeros64 (-v - 1).toNat

/-- The bit stream the codec reads from / writes to. -/
abbrev BitStream := List Bool

/-- The MSB-first bit pattern of `v % 2 ^ n`, `n` bits long. -/
def natToBits : Nat → Nat → List Bool
  | 0, _ => []
  | n + 1, v => v.testBit n :: natToBits n v

/-- Modelled from the spec: `BitRead::read_bit` on a `BitBuffer` returns
the next bit, failing with `EndOfStream` past the visible length. -/
def read_bit : BitStream → Except Err (Bool × BitStream)
  | [] => .error .EndOfStream
  | b :: s => .ok (b, s)

/-- Modelled from the spec: accumulator loop of `read_bits_nat`. -/
def read_bits_acc : Nat → Nat → BitStream → Except Err (Nat × BitStream)
  | 0, acc, s => .ok (acc, s)
  | _ + 1, _, [] => .error .EndOfStream
  | n + 1, acc, b :: s => read_bits_acc n (2 * acc + (if b then 1 else 0)) s

/-- Modelled from the spec: reading `n` bits MSB-first into the low end of
a byte buffer and reinterpreting it big-endian — the combination
`read_bits_with_offset(&mut bytes, 64 - n)` / `u64::from_be_bytes` used by
the integer decoders (spec section 4.1: bit order is MSB-first). -/
def read_bits_nat (n : Nat) (s : BitStream) : Except Err (Nat × BitStream) :=
  read_bits_acc n 0 s

/-- Modelled from the spec: reading `n` raw bits into a fresh buffer
(`read_bits` / `read_bits_with_len`). -/
def read_bits_list : Nat → BitStream → Except Err (List Bool × BitStream)
  | 0, s => .ok ([], s)
  | _ + 1, [] => .error .EndOfStream
  | n + 1, b :: s => do
    let (l, s) ← read_bits_list n s
    .ok (b :: l, s)

/-- Modelled from the spec: `BitWrite::write_bit` appends one bit. -/
def write_bit (b : Bool) (s : BitStream) : BitStream := s ++ [b]

/-- Modelled from the spec: appending the low `n` bits of `v` MSB-first —
the combination `to_be_bytes` / `write_bits_with_offset(bytes, 64 - n)`
used by the integer encoders. -/
def write_bits_nat (n v : Nat) (s : BitStream) : BitStream := s ++ natToBits n v

/-- Modelled from the spec: `write_bits_with_offset_len(src, off, len)`
appends `len` bits of `src` starting at bit `off`. -/
def write_bits_with_offset_len (src : List Bool) (off len : Nat) (s : BitStream) :
    BitStream :=
  s ++ (src.drop off).take len

/-- Modelled from the spec: placing `chunk` into `dst` starting at bit
offset `off` (destination side of `read_bits_with_offset_len`). -/
def write_into (dst : List Bool) (off : Nat) (chunk : List Bool) : List Bool :=
  dst.take off ++ chunk ++ dst.drop (off + chunk.length)

/-- X.691 11.3, branch of `read_non_negative_binary_integer` with at least
one bound present: `range = upper.saturating_sub(lower)` (`Nat`
subtraction is saturating), read `64 - range.leading_zeros()` bits, return
`lower + n` (`u64` addition wraps). -/
def read_non_negative_binary_integer_ranged (lower upper : Nat) (s : BitStream) :
    Except Err (Nat × BitStream) := do
  let range := upper - lower
  let offset_bits := leadingZeros64 range
  let (n, s) ← read_bits_nat (64 - offset_bits) s
  .ok ((lower + n) % U64_MOD, s)

/-- `read_non_negative_binary_integer(lb, ub)` when at least one bound is
present: the source unwraps `lb` to `0` and `ub` to `i64::MAX as u64`. -/
def read_non_negative_binary_integer_opt (lb ub : Option Nat) (s : BitStream) :
    Except Err (Nat × BitStream) :=
  read_non_negative_binary_integer_ranged (lb.getD 0) (ub.getD i64_max_u) s

/-- X.691 11.9.4, `read_length_determinant`. The bounded branches call
`read_non_negative_binary_integer` with at least one bound present, which
is `read_non_negative_binary_integer_opt`. -/
def read_length_determinant (lb ub : Option Nat) (s : BitStream) :
    Except Err (Nat × BitStream) :=
  let lower_bound_unwrapped := lb.getD 0
  let upper_bound_unwrapped := ub.getD i64_max_u
  if (lb.isSome ∨ ub.isSome) ∧ LENGTH_64K ≤ upper_bound_unwrapped then
    -- 11.9.4.2
    if lb = ub then .ok (lower_bound_unwrapped, s)
    else do
      let (n, s) ← read_non_negative_binary_integer_opt lb ub s
      .ok ((lower_bound_unwrapped + n) % U64_MOD, s)
  else if ub.isSome ∧ upper_bound_unwrapped ≤ LENGTH_64K then
    -- 11.9.4.1 -> 11.9.3.4 -> 11.6.1
    read_non_negative_binary_integer_opt lb ub s
  else do
    -- 11.9.4.1 -> 11.9.3.5
    let (b0, s) ← read_bit s
    if !b0 then
      -- 11.9.3.6: less than or equal to 127
      read_non_negative_binary_integer_opt none (some LENGTH_127) s
    else do
      let (b1, s) ← read_bit s
      if !b1 then
        -- 11.9.3.7: greater than 127 and less than 16K
        read_non_negative_binary_integer_opt none (some (LENGTH_16K - 1)) s
      else do
        -- 11.9.3.8: chunks of 16k multiples; 6 bits into a byte at offset 2
        let (multiple, s) ← read_bits_nat 6 s
        .ok (LENGTH_16K * Nat.min multiple MAX_FRAGMENTS, s)

/-- X.691 11.3, `read_non_negative_binary_integer`. -/
def read_non_negative_binary_integer (lb ub : Option Nat) (s : BitStream) :
    Except Err (Nat × BitStream) :=
  match lb, ub with
  | none, none => do
    let (length, s) ← read_length_determinant none none s
    if length ≤ 8 then
      -- read `length` bytes big-endian into the low side of the buffer
      read_bits_nat (length * BYTE_LEN) s
    else .error (.LengthDeterminantExceedsLimit length 8)
  | lb, ub => read_non_negative_binary_integer_opt lb ub s

/-- X.691 11.4, `read_2s_compliment_binary_integer`: read `bit_len` bits
into the low side of an 8-byte buffer, fill every bit above `bit_len` with
ones when the most significant bit of the field is set, reinterpret the
64-bit pattern as an `i64`. -/
def read_2s_compliment_binary_integer (bit_len : Nat) (s : BitStream) :
    Except Err (Int × BitStream) :=
  if bit_len = 0 ∨ 64 < bit_len then
    .error (.BitLenNotInRange bit_len 1 64)
  else do
    let (n, s) ← read_bits_nat bit_len s
    let pattern := if 2 ^ (bit_len - 1) ≤ n then n + (U64_MOD - 2 ^ bit_len) else n
    .ok (i64_from_pattern pattern, s)

/-- X.691 11.9.3, `read_normally_small_length` via
`read_normally_small_non_negative_whole_number` (chapter 11.6). -/
def read_normally_small_non_negative_whole_number (s : BitStream) :
    Except Err (Nat × BitStream) := do
  let (greater_or_equal_to_64, s) ← read_bit s
  if greater_or_equal_to_64 then
    -- 11.6.2
    read_non_negative_binary_integer none none s
  else
    -- 11.6.1
    read_non_negative_binary_integer none (some (SMALL_NON_NEGATIVE_NUMBER - 1)) s

def read_normally_small_length (s : BitStream) : Except Err (Nat × BitStream) :=
  read_normally_small_non_negative_whole_number s

/-- X.691 11.8, `read_unconstrained_whole_number`. -/
def read_unconstrained_whole_number (s : BitStream) : Except Err (Int × BitStream) := do
  let (octet_len, s) ← read_length_determinant none none s
  read_2s_compliment_binary_integer (octet_len * BYTE_LEN) s

/-- `read_choice_index` / `read_enumeration_index`. -/
def read_enumeration_index (std_variants : Nat) (extensible : Bool) (s : BitStream) :
    Except Err (Nat × BitStream) := do
  let (ext, s) ←
    if extensible then read_bit s else .ok (false, s)
  if ext then do
    let (n, s) ← read_normally_small_length s
    .ok ((n + std_variants) % U64_MOD, s)
  else
    read_non_negative_binary_integer none (some (std_variants - 1)) s

def read_choice_index (std_variants : Nat) (extensible : Bool) (s : BitStream) :
    Except Err (Nat × BitStream) :=
  read_enumeration_index std_variants extensible s

/-- X.691 11.3, branch of `write_non_negative_binary_integer` with at least
one bound present: `range = upper - lower` (`u64` subtraction, wrapping in
release builds), then the bits `offset_bits..64` of the big-endian bytes of
`value - lower` are emitted, i.e. the low `64 - offset_bits` bits. -/
def write_non_negative_binary_integer_ranged (lower upper value : Nat) (s : BitStream) :
    BitStream :=
  let range := u64_wrapping_sub upper lower
  let offset_bits := leadingZeros64 range
  write_bits_nat (64 - offset_bits) (u64_wrapping_sub value lower) s

/-- X.691 11.9.4, `write_length_determinant`. Returns `some chunk_size`
exactly on the 11.9.3.8 branch. The bounded branches call
`write_non_negative_binary_integer` with at least one bound present, which
is `write_non_negative_binary_integer_ranged` with the unwrapped bounds. -/
def write_length_determinant (lb ub : Option Nat) (value : Nat) (s : BitStream) :
    Except Err (Option Nat × BitStream) :=
  let lower_bound_unwrapped := lb.getD 0
  let upper_bound_unwrapped := ub.getD i64_max_u
  if (lb.isSome ∨ ub.isSome) ∧ LENGTH_64K ≤ upper_bound_unwrapped then
    -- 11.9.4.2
    if lb = ub then .ok (none, s)
    else if value < lower_bound_unwrapped then
      .error (.ValueNotInRange (value : Int) (lower_bound_unwrapped : Int)
        (upper_bound_unwrapped : Int))
    else
      .ok (none, write_non_negative_binary_integer_ranged lower_bound_unwrapped
        upper_bound_unwrapped (value - lower_bound_unwrapped) s)
  else if ub.isSome ∧ upper_bound_unwrapped ≤ LENGTH_64K then
    -- 11.9.4.1 -> 11.9.3.4 -> 11.6.1
    .ok (none, write_non_negative_binary_integer_ranged lower_bound_unwrapped
      upper_bound_unwrapped value s)
  else
    -- 11.9.4.1 -> 11.9.3.5
    if value ≤ LENGTH_127 then
      -- 11.9.3.6: less than or equal to 127
      .ok (none, write_non_negative_binary_integer_ranged 0 LENGTH_127 value
        (write_bit false s))
    else if value < LENGTH_16K then
      -- 11.9.3.7: greater than 127 and less than 16K
      .ok (none, write_non_negative_binary_integer_ranged 0 (LENGTH_16K - 1) value
        (write_bit false (write_bit true s)))
    else
      -- 11.9.3.8: chunks of 16k multiples; `(value / LENGTH_16K) as u8`
      -- truncates to 8 bits before the clamp to MAX_FRAGMENTS
      let multiple := Nat.min (value / LENGTH_16K % 256) MAX_FRAGMENTS
      .ok (some (multiple * LENGTH_16K),
        write_bits_nat 6 multiple (write_bit true (write_bit true s)))

/-- X.691 11.3, `write_non_negative_binary_integer`. In the unconstrained
branch `offset = value.leading_zeros() / 8` whole bytes are skipped and the
remaining `len` bytes are emitted after an unbounded length determinant. -/
def write_non_negative_binary_integer (lb ub : Option Nat) (value : Nat) (s : BitStream) :
    Except Err BitStream :=
  match lb, ub with
  | none, none => do
    let offset := leadingZeros64 value / 8
    let len := 8 - offset
    let (_, s) ← write_length_determinant none none len s
    .ok (write_bits_nat (len * BYTE_LEN) value s)
  | lb, ub =>
    .ok (write_non_negative_binary_integer_ranged (lb.getD 0) (ub.getD i64_max_u) value s)

/-- X.691 11.4, `write_2s_compliment_binary_integer`: emit the low
`bit_len` bits of the 64-bit two's complement pattern of `value`. -/
def write_2s_compliment_binary_integer (bit_len : Nat) (value : Int) (s : BitStream) :
    BitStream :=
  write_bits_nat bit_len (value % (2 ^ 64 : Int)).toNat s

/-- X.691 11.5, `write_constrained_whole_number`: `range = ub - lb` is an
`i64` subtraction (wrapping in release builds); the range check runs only
when `range > 0`. -/
def write_constrained_whole_number (lower_bound upper_bound value : Int) (s : BitStream) :
    Except Err BitStream :=
  let range := wrap_i64 (upper_bound - lower_bound)
  if 0 < range then
    if value < lower_bound ∨ upper_bound < value then
      .error (.ValueNotInRange value lower_bound upper_bound)
    else
      write_non_negative_binary_integer none (some range.toNat)
        (value - lower_bound).toNat s
  else .ok s

/-- X.691 11.6, `write_normally_small_non_negative_whole_number`. -/
def write_normally_small_non_negative_whole_number (value : Nat) (s : BitStream) :
    Except Err BitStream :=
  let greater_or_equal_to_64 : Bool := decide (SMALL_NON_NEGATIVE_NUMBER ≤ value)
  let s := write_bit greater_or_equal_to_64 s
  if greater_or_equal_to_64 then
    -- 11.6.2
    write_non_negative_binary_integer none none value s
  else
    -- 11.6.1
    write_non_negative_binary_integer none (some (SMALL_NON_NEGATIVE_NUMBER - 1)) value s

/-- X.691 11.9.3, `write_normally_small_length`. -/
def write_normally_small_length (value : Nat) (s : BitStream) : Except Err BitStream :=
  write_normally_small_non_negative_whole_number value s

/-- The octet count chosen by `write_unconstrained_whole_number`:
`8 - prefix_len` where `prefix_len` is the saturated leading-ones /
leading-zeros count minus one, divided by 8. -/
def unconstrained_octet_len (value : Int) : Nat :=
  let pre_len :=
    (if value < 0 then i64_leading_ones value - 1 else i64_leading_zeros value - 1) / 8
  8 - pre_len

/-- X.691 11.8, `write_unconstrained_whole_number`. -/
def write_unconstrained_whole_number (value : Int) (s : BitStream) :
    Except Err BitStream := do
  let octet_len := unconstrained_octet_len value
  let (_, s) ← write_length_determinant none none octet_len s
  .ok (write_2s_compliment_binary_integer (octet_len * BYTE_LEN) value s)

/-- `write_choice_index` / `write_enumeration_index`. -/
def write_enumeration_index (std_variants : Nat) (extensible : Bool) (index : Nat)
    (s : BitStream) : Except Err BitStream :=
  let out_of_range : Bool := decide (std_variants ≤ index)
  let s := if extensible then write_bit out_of_range s else s
  if out_of_range then
    if extensible then write_normally_small_length (index - std_variants) s
    else .error (.InvalidChoiceIndex index std_variants)
  else
    write_non_negative_binary_integer none (some (std_variants - 1)) index s

def write_choice_index (std_variants : Nat) (extensible : Bool) (index : Nat)
    (s : BitStream) : Except Err BitStream :=
  write_enumeration_index std_variants extensible index s

/-- The fragmentation loop of `write_bitstring` (X.691 chapter 16); entered
with `written = MAX_FRAGMENTS_SIZE`. Each round emits a determinant for
`fragment_size` — the remaining length capped at `MAX_FRAGMENTS_SIZE` and
rounded down to a multiple of `MIN_FRAGMENT_SIZE` — then that many payload
bits, and stops once `fragment_size < MIN_FRAGMENT_SIZE`. -/
def write_bitstring_loop (src : List Bool) (offset length written : Nat)
    (s : BitStream) : Except Err BitStream := do
  let capped := Nat.min (length - written) MAX_FRAGMENTS_SIZE
  let fragment_size := capped - capped % MIN_FRAGMENT_SIZE
  let (_, s) ← write_length_determinant none none fragment_size s
  let s := write_bits_with_offset_len src (offset + written) fragment_size s
  if fragment_size < MIN_FRAGMENT_SIZE then .ok s
  else write_bitstring_loop src offset length (written + fragment_size) s
termination_by length - written
decreasing_by
  have h1 : Nat.min (length - written) MAX_FRAGMENTS_SIZE ≤ length - written :=
    Nat.min_le_left _ _
  have h2 : capped - capped % MIN_FRAGMENT_SIZE ≤ capped := Nat.sub_le _ _
  simp only [MIN_FRAGMENT_SIZE, FRAGMENT_SIZE] at *
  omega

/-- X.691 chapter 16, `write_bitstring`. `src` is the source bit buffer,
`offset` / `len` delimit the payload within it. -/
def write_bitstring (lower_bound_size upper_bound_size : Option Nat) (extensible : Bool)
    (src : List Bool) (offset len : Nat) (s : BitStream) : Except Err BitStream := do
  let lower_bound := lower_bound_size.getD 0
  let upper_bound := upper_bound_size.getD i64_max_u
  let length := len
  let fragmented : Bool := decide (MAX_FRAGMENTS_SIZE < length)
  let out_of_range : Bool := decide (length < lower_bound) || decide (upper_bound < length)
  let s := if extensible then write_bit out_of_range s else s
  let s ←
    if out_of_range then
      if extensible then do
        -- 16.6
        let (_, s) ← write_length_determinant none none length s
        Except.ok s
      else .error (.SizeNotInRange length lower_bound upper_bound)
    else if lower_bound_size.isSome ∧ lower_bound_size = upper_bound_size ∧
        upper_bound < LENGTH_64K then
      -- 16.10: fixed size, no length
      Except.ok s
    else do
      -- 16.11
      let (_, s) ← write_length_determinant lower_bound_size upper_bound_size length s
      Except.ok s
  let s := write_bits_with_offset_len src offset (Nat.min MAX_FRAGMENTS_SIZE length) s
  if fragmented then write_bitstring_loop src offset length MAX_FRAGMENTS_SIZE s
  else .ok s

/-- The fragment-continuation loop of `read_bitstring`. `fuel` only bounds
the iteration count; each round consumes at least one bit of the stream, so
`fuel = s.length + 1` can never be exhausted before the loop stops or fails.
The byte bookkeeping (`ext_byte_len`, `byte_len += ext_bit_len`) mirrors
the source, `u64` subtraction rendered as saturating `Nat` subtraction. -/
def read_bitstring_loop : Nat → List Bool → Nat → Nat → BitStream →
    Except Err (List Bool × Nat × BitStream)
  | 0, _, _, _, _ => .error .EndOfStream
  | fuel + 1, buffer, bit_len, byte_len, s => do
    let (ext_bit_len, s) ← read_length_determinant none none s
    let ext_byte_len := byte_len - (bit_len + ext_bit_len + 7) / 8
    let buffer := buffer ++ List.replicate (ext_byte_len * BYTE_LEN) false
    let (chunk, s) ← read_bits_list ext_bit_len s
    let buffer := write_into buffer bit_len chunk
    let bit_len := bit_len + ext_bit_len
    let byte_len := byte_len + ext_bit_len
    if ext_bit_len < LENGTH_16K then .ok (buffer, bit_len, s)
    else read_bitstring_loop fuel buffer bit_len byte_len s

/-- X.691 chapter 16, `read_bitstring`. The result carries the decoded bit
buffer (`⌈bit_len/8⌉` bytes, trailing bits zero) and the bit length. -/
def read_bitstring (lower_bound_size upper_bound_size : Option Nat) (extensible : Bool)
    (s : BitStream) : Except Err (List Bool × Nat × BitStream) := do
  let upper_bound := upper_bound_size.getD i64_max_u
  let (ext, s) ← if extensible then read_bit s else .ok (false, s)
  let (bit_len, fragmentation_possible, s) ←
    if ext then do
      -- 16.6
      let (l, s) ← read_length_determinant none none s
      Except.ok (l, true, s)
    else if lower_bound_size.isSome ∧ lower_bound_size = upper_bound_size ∧
        upper_bound < LENGTH_64K then
      -- 16.10
      Except.ok (upper_bound, false, s)
    else do
      -- 16.11
      let (l, s) ← read_length_determinant lower_bound_size upper_bound_size s
      Except.ok (l, true, s)
  let byte_len := (bit_len + 7) / 8
  let (content, s) ← read_bits_list bit_len s
  let buffer := content ++ List.replicate (byte_len * BYTE_LEN - bit_len) false
  if fragmentation_possible ∧ LENGTH_16K ≤ bit_len then
    read_bitstring_loop (s.length + 1) buffer bit_len byte_len s
  else .ok (buffer, bit_len, s)

/-- Modelled from the spec: the state visible through `ScopedBitRead`
(section 4.1 / section 3, BitBuffer): underlying bits, read position and
visible length. -/
structure ScopedState where
  bits : List Bool
  pos : Nat
  len : Nat
  deriving DecidableEq, Repr

/-- Modelled from the spec: `set_pos` clamps the requested position to the
visible length and returns the actual new position. -/
def ScopedState.set_pos (s : ScopedState) (position : Nat) : Nat × ScopedState :=
  let p := Nat.min position s.len
  (p, { s with pos := p })

/-- Modelled from the spec: `set_len` clamps the requested visible length
to the underlying buffer and returns the actual new value. -/
def ScopedState.set_len (s : ScopedState) (l : Nat) : Nat × ScopedState :=
  let v := Nat.min l s.bits.length
  (v, { s with len := v })

/-- `ScopedBitRead::with_read_position_at`: save the position, move to
`pos`, run `f`, move back to the saved position. -/
def with_read_position_at {T : Type} (pos : Nat) (f : ScopedState → T × ScopedState)
    (s : ScopedState) : T × ScopedState :=
  let original_pos := s.pos
  let s := (s.set_pos pos).2
  let (result, s) := f s
  let s := (s.set_pos original_pos).2
  (result, s)

/-! ### Facts about the bit-level substrate -/

theorem natToBits_length (n v : Nat) : (natToBits n v).length = n := by
  induction n generalizing v with
  | zero => rfl
  | succ n ih => simp [natToBits, ih]

theorem mod_pow_succ_testBit (v n : Nat) :
    v % 2 ^ (n + 1) = (if v.testBit n then 1 else 0) * 2 ^ n + v % 2 ^ n := by
  rw [Nat.testBit_to_div_mod, pow_succ, Nat.mod_mul]
  have h : v / 2 ^ n % 2 = 0 ∨ v / 2 ^ n % 2 = 1 := by omega
  rcases h with h | h <;> (simp [h]; try ring)

theorem read_bits_acc_append (n : Nat) : ∀ (acc v : Nat) (r : BitStream),
    read_bits_acc n acc (natToBits n v ++ r) = .ok (acc * 2 ^ n + v % 2 ^ n, r) := by
  induction n with
  | zero => intro acc v r; simp [read_bits_acc, natToBits, Nat.mod_one]
  | succ n ih =>
    intro acc v r
    simp only [natToBits, List.cons_append, read_bits_acc, List.append_eq]
    rw [ih]
    congr 2
    rw [mod_pow_succ_testBit]
    cases h : v.testBit n <;> (simp [h]; try ring)

theorem read_bits_nat_append {n v : Nat} (hv : v < 2 ^ n) (r : BitStream) :
    read_bits_nat n (natToBits n v ++ r) = .ok (v, r) := by
  rw [read_bits_nat, read_bits_acc_append]
  simp [Nat.mod_eq_of_lt hv]

theorem natToBits_congr (n : Nat) : ∀ a b : Nat, a % 2 ^ n = b % 2 ^ n →
    natToBits n a = natToBits n b := by
  induction n with
  | zero => intro a b _; rfl
  | succ n ih =>
    intro a b h
    have hbit : a.testBit n = b.testBit n := by
      have ha := Nat.testBit_mod_two_pow a (n + 1) n
      have hb := Nat.testBit_mod_two_pow b (n + 1) n
      rw [h] at ha
      simpa [Nat.lt_succ_self] using ha.symm.trans hb
    have hmod : a % 2 ^ n = b % 2 ^ n := by
      have ha : a % 2 ^ n = a % 2 ^ (n + 1) % 2 ^ n :=
        (Nat.mod_mod_of_dvd a (pow_dvd_pow 2 (Nat.le_succ n))).symm
      have hb : b % 2 ^ n = b % 2 ^ (n + 1) % 2 ^ n :=
        (Nat.mod_mod_of_dvd b (pow_dvd_pow 2 (Nat.le_succ n))).symm
      rw [ha, hb, h]
    simp [natToBits, hbit, ih _ _ hmod]

theorem natToBits_mod (n v : Nat) : natToBits n (v % 2 ^ n) = natToBits n v :=
  natToBits_congr n _ _ (Nat.mod_mod_of_dvd v (dvd_refl _))

theorem read_bits_list_append : ∀ (l r : BitStream),
    read_bits_list l.length (l ++ r) = .ok (l, r) := by
  intro l
  induction l with
  | nil => intro r; rfl
  | cons b l ih =>
    intro r
    simp only [List.cons_append, List.length_cons, read_bits_list, List.append_eq, ih]
    rfl

theorem bitLenAux_bound (fuel : Nat) : ∀ n : Nat, n ≤ fuel → n < 2 ^ bitLenAux fuel n := by
  induction fuel with
  | zero =>
    intro n h
    have : n = 0 := by omega
    subst this
    simp [bitLenAux]
  | succ fuel ih =>
    intro n h
    by_cases h0 : n = 0
    · subst h0; simp [bitLenAux]
    · simp only [bitLenAux, if_neg h0]
      have hd := ih (n / 2) (by omega)
      rw [pow_succ]
      omega

theorem bitLenAux_min (fuel : Nat) : ∀ n m : Nat, n ≤ fuel → n < 2 ^ m →
    bitLenAux fuel n ≤ m := by
  induction fuel with
  | zero =>
    intro n m h _
    have : n = 0 := by omega
    subst this
    simp [bitLenAux]
  | succ fuel ih =>
    intro n m h hm
    by_cases h0 : n = 0
    · simp [bitLenAux, h0]
    · simp only [bitLenAux, if_neg h0]
      have hm1 : 1 ≤ m := by
        rcases Nat.eq_zero_or_pos m with rfl | h1
        · simp at hm; omega
        · exact h1
      have h2 : 2 ^ m = 2 ^ (m - 1) * 2 := by
        rw [← pow_succ]
        congr 1
        omega
      have hdiv : n / 2 < 2 ^ (m - 1) := by omega
      have := ih (n / 2) (m - 1) (by omega) hdiv
      omega

theorem bitLen_bound (n : Nat) : n < 2 ^ bitLen n := bitLenAux_bound n n le_rfl

theorem bitLen_min {n m : Nat} (h : n < 2 ^ m) : bitLen n ≤ m :=
  bitLenAux_min n n m le_rfl h

theorem u64_wrapping_sub_zero {a : Nat} (h : a < U64_MOD) : u64_wrapping_sub a 0 = a := by
  rw [u64_wrapping_sub, Nat.sub_zero, Nat.add_mod_right, Nat.mod_eq_of_lt h]

theorem except_bind_ok {α β : Type} (a : α) (f : α → Except Err β) :
    (Except.ok a >>= f) = f a := rfl

/-! ### Evaluation lemmas for the integer primitives -/

theorem write_length_determinant_small {v : Nat} (hv : v ≤ 127) (s : BitStream) :
    write_length_determinant none none v s = .ok (none, s ++ false :: natToBits 7 v) := by
  have h127 : u64_wrapping_sub LENGTH_127 0 = 127 := by decide
  have hlz : leadingZeros64 127 = 57 := by decide
  have hv64 : v < U64_MOD := by
    have h : (127 : Nat) < U64_MOD := by decide
    omega
  unfold write_length_determinant
  rw [if_neg (by simp), if_neg (by simp), if_pos (by simpa [LENGTH_127] using hv)]
  have hr : write_non_negative_binary_integer_ranged 0 LENGTH_127 v (write_bit false s) =
      write_bits_nat 7 (u64_wrapping_sub v 0) (write_bit false s) := rfl
  rw [hr, u64_wrapping_sub_zero hv64]
  simp [write_bits_nat, write_bit]

theorem read_length_determinant_small {v : Nat} (hv : v < 128) (r : BitStream) :
    read_length_determinant none none (false :: natToBits 7 v ++ r) = .ok (v, r) := by
  have hv64 : v < U64_MOD := by
    have h : (128 : Nat) < U64_MOD := by decide
    omega
  have step1 : read_length_determinant none none (false :: natToBits 7 v ++ r) =
      read_non_negative_binary_integer_opt none (some LENGTH_127) (natToBits 7 v ++ r) := rfl
  have step2 : read_non_negative_binary_integer_opt none (some LENGTH_127)
      (natToBits 7 v ++ r) = (do
        let (n, s) ← read_bits_nat 7 (natToBits 7 v ++ r)
        Except.ok ((0 + n) % U64_MOD, s)) := rfl
  rw [step1, step2, read_bits_nat_append (by omega : v < 2 ^ 7) r, except_bind_ok]
  simp [Nat.mod_eq_of_lt hv64]

theorem read_2s_compliment_eval {bl n : Nat} (hbl0 : bl ≠ 0) (hbl : bl ≤ 64)
    (hn : n < 2 ^ bl) (r : BitStream) :
    read_2s_compliment_binary_integer bl (natToBits bl n ++ r) =
      .ok (if n < 2 ^ (bl - 1) then (n : Int) else (n : Int) - 2 ^ bl, r) := by
  have hsplit : (2 : Nat) ^ bl = 2 ^ (bl - 1) * 2 := by
    rw [← pow_succ]
    congr 1
    omega
  have hhalf : (2 : Nat) ^ (bl - 1) ≤ 2 ^ 63 := Nat.pow_le_pow_right (by norm_num) (by omega)
  have hfull : (2 : Nat) ^ bl ≤ 2 ^ 64 := Nat.pow_le_pow_right (by norm_num) hbl
  have h6364 : (2 : Nat) ^ 64 = 2 ^ 63 * 2 := by norm_num
  unfold read_2s_compliment_binary_integer
  rw [if_neg (by omega)]
  rw [read_bits_nat_append hn]
  simp only [except_bind_ok, U64_MOD]
  by_cases hc : n < 2 ^ (bl - 1)
  · rw [if_neg (by omega : ¬ 2 ^ (bl - 1) ≤ n), if_pos hc]
    unfold i64_from_pattern
    rw [if_pos (by omega : n < 2 ^ 63)]
  · rw [if_pos (by omega : 2 ^ (bl - 1) ≤ n), if_neg hc]
    unfold i64_from_pattern
    rw [if_neg (by omega : ¬ n + (2 ^ 64 - 2 ^ bl) < 2 ^ 63)]
    simp only [Except.ok.injEq, Prod.mk.injEq, and_true]
    have hp1 : ((2 : Int) ^ bl) = ((2 ^ bl : Nat) : Int) := by push_cast; ring
    rw [hp1]
    omega

theorem pow_cast_int (k : Nat) : ((2 ^ k : Nat) : Int) = (2 : Int) ^ k := by
  push_cast
  ring

theorem toNat_emod_pow (v : Int) {k m : Nat} (hk : k ≤ m) :
    (v % (2 ^ m : Int)).toNat % 2 ^ k = (v % (2 ^ k : Int)).toNat := by
  have hmpos : (0 : Int) < 2 ^ m := by positivity
  have hkpos : (0 : Int) < 2 ^ k := by positivity
  have h1 : 0 ≤ v % (2 ^ m : Int) := Int.emod_nonneg v (ne_of_gt hmpos)
  have h2 : 0 ≤ v % (2 ^ k : Int) := Int.emod_nonneg v (ne_of_gt hkpos)
  have key : (((v % (2 ^ m : Int)).toNat % 2 ^ k : Nat) : Int) =
      (((v % (2 ^ k : Int)).toNat : Nat) : Int) := by
    rw [Int.natCast_mod, Int.toNat_of_nonneg h1, Int.toNat_of_nonneg h2, pow_cast_int]
    exact Int.emod_emod_of_dvd v (pow_dvd_pow 2 hk)
  exact_mod_cast key

/-- Decoding `bl` two's complement bits recovers any value in the
`bl`-bit signed range from its encoded (low-`bl`-bits-of-the-64-bit-
pattern) form. -/
theorem read_2s_compliment_roundtrip (bl : Nat) (v : Int) (r : BitStream)
    (hbl0 : bl ≠ 0) (hbl : bl ≤ 64)
    (hlo : -((2 : Int) ^ (bl - 1)) ≤ v) (hhi : v < 2 ^ (bl - 1)) :
    read_2s_compliment_binary_integer bl
      (natToBits bl (v % (2 ^ 64 : Int)).toNat ++ r) = .ok (v, r) := by
  have hsplit : (2 : Int) ^ bl = 2 ^ (bl - 1) * 2 := by
    rw [← pow_succ]
    congr 1
    omega
  have hhalf_pos : (0 : Int) ≤ 2 ^ (bl - 1) := by positivity
  have hblpos : (0 : Int) < 2 ^ bl := by positivity
  have hnn2 : 0 ≤ v % (2 ^ bl : Int) := Int.emod_nonneg v (ne_of_gt hblpos)
  have hlt2 : v % (2 ^ bl : Int) < 2 ^ bl := Int.emod_lt_of_pos v hblpos
  have hbits : natToBits bl (v % (2 ^ 64 : Int)).toNat =
      natToBits bl (v % (2  ^ bl : Int)).toNat := by
    apply natToBits_congr
    rw [toNat_emod_pow v hbl, Nat.mod_eq_of_lt]
    have hc := pow_cast_int bl
    have hcastn : (((v % (2 ^ bl : Int)).toNat : Nat) : Int) = v % 2 ^ bl :=
      Int.toNat_of_nonneg hnn2
    omega
  rw [hbits]
  have hcastn : (((v % (2 ^ bl : Int)).toNat : Nat) : Int) = v % 2 ^ bl :=
    Int.toNat_of_nonneg hnn2
  have hc := pow_cast_int bl
  have hc1 := pow_cast_int (bl - 1)
  have hnlt : (v % (2 ^ bl : Int)).toNat < 2 ^ bl := by omega
  rw [read_2s_compliment_eval hbl0 hbl hnlt r]
  simp only [Except.ok.injEq, Prod.mk.injEq, and_true]
  by_cases hv : 0 ≤ v
  · have hveq : v % (2 ^ bl : Int) = v := by
      apply Int.emod_eq_of_lt hv
      linarith
    rw [if_pos (by omega : (v % (2 ^ bl : Int)).toNat < 2 ^ (bl - 1))]
    omega
  · push_neg at hv
    have hveq : v % (2 ^ bl : Int) = v + 2 ^ bl := by
      have hrem : (v + 2 ^ bl * 1) % (2 ^ bl : Int) = v % 2 ^ bl :=
        Int.add_mul_emod_self_left v (2 ^ bl) 1
      rw [mul_one] at hrem
      rw [← hrem]
      apply Int.emod_eq_of_lt (by linarith) (by linarith)
    rw [if_neg (by omega : ¬ (v % (2 ^ bl : Int)).toNat < 2 ^ (bl - 1))]
    omega

/-- Bounds on the octet count chosen by `write_unconstrained_whole_number`:
it lies in `1..=8` and the value fits the signed range of
`octet_len * 8` bits. -/
theorem unconstrained_octet_len_bounds (v : Int)
    (h1 : -(2 ^ 63 : Int) ≤ v) (h2 : v < 2 ^ 63) :
    1 ≤ unconstrained_octet_len v ∧ unconstrained_octet_len v ≤ 8 ∧
    -((2 : Int) ^ (unconstrained_octet_len v * BYTE_LEN - 1)) ≤ v ∧
    v < 2 ^ (unconstrained_octet_len v * BYTE_LEN - 1) := by
  by_cases hv : v < 0
  · have hoct : unconstrained_octet_len v = 8 - (64 - bitLen (-v - 1).toNat - 1) / 8 := by
      simp only [unconstrained_octet_len, i64_leading_ones, leadingZeros64, if_pos hv]
    rw [hoct]
    have hxv : (((-v - 1).toNat : Nat) : Int) = -v - 1 := by omega
    have hx : (-v - 1).toNat < 2 ^ 63 := by omega
    have ht := bitLen_min hx
    have htb := bitLen_bound (-v - 1).toNat
    set t := bitLen (-v - 1).toNat with htdef
    have hb3 : t ≤ (8 - (64 - t - 1) / 8) * BYTE_LEN - 1 := by
      simp only [BYTE_LEN]
      omega
    have hpow : (2 : Nat) ^ t ≤ 2 ^ ((8 - (64 - t - 1) / 8) * BYTE_LEN - 1) :=
      Nat.pow_le_pow_right (by norm_num) hb3
    have hxlt : (-v - 1).toNat < 2 ^ ((8 - (64 - t - 1) / 8) * BYTE_LEN - 1) :=
      lt_of_lt_of_le htb hpow
    have hc := pow_cast_int ((8 - (64 - t - 1) / 8) * BYTE_LEN - 1)
    refine ⟨by omega, by omega, by omega, by omega⟩
  · push_neg at hv
    have hoct : unconstrained_octet_len v = 8 - (64 - bitLen v.toNat - 1) / 8 := by
      simp only [unconstrained_octet_len, i64_leading_zeros, leadingZeros64,
        if_neg (by omega : ¬ v < 0)]
    rw [hoct]
    have hxv : ((v.toNat : Nat) : Int) = v := by omega
    have hx : v.toNat < 2 ^ 63 := by omega
    have ht := bitLen_min hx
    have htb := bitLen_bound v.toNat
    set t := bitLen v.toNat with htdef
    have hb3 : t ≤ (8 - (64 - t - 1) / 8) * BYTE_LEN - 1 := by
      simp only [BYTE_LEN]
      omega
    have hpow : (2 : Nat) ^ t ≤ 2 ^ ((8 - (64 - t - 1) / 8) * BYTE_LEN - 1) :=
      Nat.pow_le_pow_right (by norm_num) hb3
    have hxlt : v.toNat < 2 ^ ((8 - (64 - t - 1) / 8) * BYTE_LEN - 1) :=
      lt_of_lt_of_le htb hpow
    have hc := pow_cast_int ((8 - (64 - t - 1) / 8) * BYTE_LEN - 1)
    refine ⟨by omega, by omega, by omega, by omega⟩

/-- Evaluating the encoder of X.691 11.8 on the empty stream. -/
theorem write_unconstrained_eval (v : Int) (hoct : unconstrained_octet_len v ≤ 8) :
    write_unconstrained_whole_number v [] =
      .ok (false :: (natToBits 7 (unconstrained_octet_len v) ++
        natToBits (unconstrained_octet_len v * BYTE_LEN) ((v % (2 ^ 64 : Int)).toNat))) := by
  simp only [write_unconstrained_whole_number]
  rw [write_length_determinant_small (show unconstrained_octet_len v ≤ 127 by omega) [],
    except_bind_ok]
  simp [write_2s_compliment_binary_integer, write_bits_nat]

/-! ### Claim theorems -/

/-- C1: for every 64-bit signed integer `v`, writing `v` into an empty bit
stream with `write_unconstrained_whole_number` and then reading the
produced bits with `read_unconstrained_whole_number` succeeds and returns
exactly `v`. -/
theorem C1_unconstrained_whole_number_roundtrip (v : Int)
    (h1 : -(2 ^ 63 : Int) ≤ v) (h2 : v < 2 ^ 63) :
    ∃ out, write_unconstrained_whole_number v [] = .ok out ∧
      read_unconstrained_whole_number out = .ok (v, []) := by
  obtain ⟨hb1, hb8, hlo, hhi⟩ := unconstrained_octet_len_bounds v h1 h2
  refine ⟨_, write_unconstrained_eval v hb8, ?_⟩
  simp only [read_unconstrained_whole_number]
  rw [← List.cons_append,
    read_length_determinant_small (by omega : unconstrained_octet_len v < 128) _,
    except_bind_ok]
  rw [show natToBits (unconstrained_octet_len v * BYTE_LEN) ((v % (2 ^ 64 : Int)).toNat) =
      natToBits (unconstrained_octet_len v * BYTE_LEN) ((v % (2 ^ 64 : Int)).toNat) ++ []
    from (List.append_nil _).symm]
  exact read_2s_compliment_roundtrip _ v []
    (by simp only [BYTE_LEN]; omega) (by simp only [BYTE_LEN]; omega) hlo hhi

theorem C1_witness :
    (-(2 ^ 63 : Int) ≤ -3 ∧ (-3 : Int) < 2 ^ 63) ∧
    ∃ out, write_unconstrained_whole_number (-3) [] = .ok out ∧
      read_unconstrained_whole_number out = .ok (-3, []) :=
  ⟨⟨by norm_num, by norm_num⟩,
    C1_unconstrained_whole_number_roundtrip (-3) (by norm_num) (by norm_num)⟩

/-- C3: writing a length inside the bounds `lb = 1`, `ub = 65536`
(the 11.9.4.2 branch) and reading it back does not return the written
length: the writer subtracts the lower bound a second time inside
`write_non_negative_binary_integer` (a wrapping `u64` underflow for
`value = 1`), and the reader adds the lower bound twice, so the round trip
returns `65537` for the written length `1`. -/
theorem C3_length_determinant_bounded_eval :
    write_length_determinant (some 1) (some 65536) 1 [] =
      .ok (none, List.replicate 16 true) ∧
    read_length_determinant (some 1) (some 65536) (List.replicate 16 true) =
      .ok (65537, []) ∧
    (65537 : Nat) ≠ 1 :=
  ⟨rfl, rfl, by decide⟩

/-- C4: the documented bit patterns at the branch boundaries of
`write_length_determinant` with both bounds absent: `127 ↦ 0 1111111`,
`128 ↦ 10 00000010000000`, `16384 ↦ 11 000001`. -/
theorem C4_length_determinant_boundary_patterns :
    write_length_determinant none none 127 [] =
      .ok (none, [false, true, true, true, true, true, true, true]) ∧
    write_length_determinant none none 128 [] =
      .ok (none, [true, false, false, false, false, false, false, false, true,
        false, false, false, false, false, false, false]) ∧
    write_length_determinant none none 16384 [] =
      .ok (some 16384, [true, true, false, false, false, false, false, true]) :=
  ⟨rfl, rfl, rfl⟩

/-- Reading an unbounded length determinant that starts `1 1`: the next 6
bits are the chunk multiplier, clamped to `MAX_FRAGMENTS`. -/
theorem read_length_determinant_chunk {m : Nat} (hm : m < 64) (r : BitStream) :
    read_length_determinant none none ((true :: true :: natToBits 6 m) ++ r) =
      .ok (LENGTH_16K * Nat.min m MAX_FRAGMENTS, r) := by
  have step1 : read_length_determinant none none ((true :: true :: natToBits 6 m) ++ r) =
      (do
        let (multiple, s) ← read_bits_nat 6 (natToBits 6 m ++ r)
        Except.ok (LENGTH_16K * Nat.min multiple MAX_FRAGMENTS, s)) := rfl
  rw [step1, read_bits_nat_append (by omega : m < 2 ^ 6) r, except_bind_ok]

/-- C6: after two leading `1` bits, `read_length_determinant` with no
bounds reads a 6-bit chunk multiplier `m` and returns
`16384 * min m 4` without error; every `m` in `5..=63` clamps to `4`,
giving `65536`. -/
theorem C6_chunk_multiplier_clamped (m : Nat) (r : BitStream) (hm : m < 64) :
    read_length_determinant none none ((true :: true :: natToBits 6 m) ++ r) =
      .ok (16384 * Nat.min m 4, r) ∧
    (5 ≤ m → 16384 * Nat.min m 4 = 65536) := by
  refine ⟨read_length_determinant_chunk hm r, fun h5 => ?_⟩
  simp only [Nat.min]
  omega

theorem C6_witness :
    read_length_determinant none none ((true :: true :: natToBits 6 7) ++ []) =
      .ok (65536, []) :=
  (C6_chunk_multiplier_clamped 7 [] (by decide)).1

/-- C8: the encoder contract of `write_enumeration_index` (to which
`write_choice_index` delegates): an extension bit equal to
`out_of_range = std_variants ≤ index` when extensible, then either
`write_normally_small_length (index - std_variants)` (extensible,
out of range), an `InvalidChoiceIndex` error (not extensible, out of
range), or `write_non_negative_binary_integer (none, std_variants - 1)`;
concretely `std_variants = 3`, extensible, index `4` emits `1 0 000001`. -/
theorem C8_enumeration_index_contract :
    (∀ (std : Nat) (ext : Bool) (idx : Nat) (s : BitStream),
      write_choice_index std ext idx s = write_enumeration_index std ext idx s) ∧
    (∀ (std idx : Nat) (s : BitStream), std ≤ idx →
      write_enumeration_index std true idx s =
        write_normally_small_length (idx - std) (write_bit true s)) ∧
    (∀ (std idx : Nat) (s : BitStream), std ≤ idx →
      write_enumeration_index std false idx s =
        .error (.InvalidChoiceIndex idx std)) ∧
    (∀ (std idx : Nat) (s : BitStream), idx < std →
      write_enumeration_index std true idx s =
        write_non_negative_binary_integer none (some (std - 1)) idx
          (write_bit false s)) ∧
    (∀ (std idx : Nat) (s : BitStream), idx < std →
      write_enumeration_index std false idx s =
        write_non_negative_binary_integer none (some (std - 1)) idx s) ∧
    write_enumeration_index 3 true 4 [] =
      .ok [true, false, false, false, false, false, false, true] := by
  refine ⟨fun _ _ _ _ => rfl, ?_, ?_, ?_, ?_, rfl⟩
  · intro std idx s h
    simp [write_enumeration_index, h]
  · intro std idx s h
    simp [write_enumeration_index, h]
  · intro std idx s h
    simp [write_enumeration_index, Nat.not_le.mpr h]
  · intro std idx s h
    simp [write_enumeration_index, Nat.not_le.mpr h]

theorem C8_witness :
    (2 : Nat) ≤ 5 ∧ write_enumeration_index 2 false 5 [] =
      .error (.InvalidChoiceIndex 5 2) :=
  ⟨by norm_num, C8_enumeration_index_contract.2.2.1 2 5 [] (by norm_num)⟩

/-- C7: `read_2s_compliment_binary_integer` fails with `BitLenNotInRange`
exactly when `bit_len = 0` or `bit_len > 64`; otherwise, given a stream
holding the `bit_len`-bit pattern of `v`, it returns the `bit_len`-wide
two's complement value sign-extended to the full `i64` — negative exactly
when the first of the `bit_len` bits is `1`. -/
theorem C7_read_2s_compliment_contract (bit_len : Nat) :
    (∀ s : BitStream, (bit_len = 0 ∨ 64 < bit_len) →
      read_2s_compliment_binary_integer bit_len s =
        .error (.BitLenNotInRange bit_len 1 64)) ∧
    (¬ (bit_len = 0 ∨ 64 < bit_len) → ∀ (v : Nat) (r : BitStream), v < 2 ^ bit_len →
      read_2s_compliment_binary_integer bit_len (natToBits bit_len v ++ r) =
        .ok (if v < 2 ^ (bit_len - 1) then (v : Int) else (v : Int) - 2 ^ bit_len, r) ∧
      ((if v < 2 ^ (bit_len - 1) then (v : Int) else (v : Int) - 2 ^ bit_len) < 0 ↔
        (natToBits bit_len v).headI = true)) := by
  constructor
  · intro s h
    unfold read_2s_compliment_binary_integer
    rw [if_pos h]
  · intro h v r hv
    refine ⟨read_2s_compliment_eval (by omega) (by omega) hv r, ?_⟩
    obtain ⟨k, rfl⟩ : ∃ k, bit_len = k + 1 := ⟨bit_len - 1, by omega⟩
    simp only [natToBits, List.headI, Nat.add_sub_cancel]
    rw [Nat.testBit_to_div_mod]
    have hpos : 0 < (2 : Nat) ^ k := pow_pos (by norm_num) k
    have hmul : v < 2 ^ k * 2 := by
      rw [← pow_succ]
      exact hv
    have hlt : v / 2 ^ k < 2 := Nat.div_lt_of_lt_mul hmul
    have hcast := pow_cast_int k
    have hcast1 := pow_cast_int (k + 1)
    by_cases hle : 2 ^ k ≤ v
    · have hone : 1 ≤ v / 2 ^ k := (Nat.one_le_div_iff hpos).mpr hle
      have hdiv : v / 2 ^ k = 1 := by omega
      rw [if_neg (by omega : ¬ v < 2 ^ k)]
      simp only [hdiv, decide_eq_true_eq]
      constructor
      · intro _
        trivial
      · intro _
        omega
    · have hdiv : v / 2 ^ k = 0 := Nat.div_eq_of_lt (by omega)
      rw [if_pos (by omega : v < 2 ^ k)]
      simp only [hdiv, decide_eq_true_eq]
      constructor
      · intro hneg
        exfalso
        omega
      · intro h10
        omega

theorem C7_witness :
    ¬ ((8 : Nat) = 0 ∨ 64 < 8) ∧ (200 : Nat) < 2 ^ 8 ∧
    (read_2s_compliment_binary_integer 8 (natToBits 8 200 ++ []) =
      .ok (if (200 : Nat) < 2 ^ (8 - 1) then ((200 : Nat) : Int)
        else ((200 : Nat) : Int) - 2 ^ 8, []) ∧
    ((if (200 : Nat) < 2 ^ (8 - 1) then ((200 : Nat) : Int)
        else ((200 : Nat) : Int) - 2 ^ 8) < 0 ↔ (natToBits 8 200).headI = true)) :=
  ⟨by decide, by norm_num,
    (C7_read_2s_compliment_contract 8).2 (by decide) 200 [] (by norm_num)⟩

/-- C5 (amended): `write_length_determinant` returns `Ok (some chunk_size)`
iff both bounds are `none` and `value ≥ 16384`, but the chunk size is
`16384 * min ((value / 16384) % 256) 4`: the `u8` cast truncates the
multiplier to 8 bits before the clamp to `MAX_FRAGMENTS`. Every other
successful call returns `Ok none`. -/
theorem C5_chunk_return_contract :
    (∀ (v : Nat) (s : BitStream), 16384 ≤ v →
      write_length_determinant none none v s =
        .ok (some (16384 * Nat.min (v / 16384 % 256) 4),
          write_bits_nat 6 (Nat.min (v / 16384 % 256) 4)
            (write_bit true (write_bit true s)))) ∧
    (∀ (lb ub : Option Nat) (v : Nat) (s out : BitStream) (c : Nat),
      write_length_determinant lb ub v s = .ok (some c, out) →
      lb = none ∧ ub = none ∧ 16384 ≤ v ∧
        c = 16384 * Nat.min (v / 16384 % 256) 4) := by
  constructor
  · intro v s hv
    unfold write_length_determinant
    rw [if_neg (by simp), if_neg (by simp),
      if_neg (by simp only [LENGTH_127]; omega),
      if_neg (by simp only [LENGTH_16K]; omega)]
    simp only [LENGTH_16K, MAX_FRAGMENTS, Except.ok.injEq, Prod.mk.injEq,
      Option.some.injEq]
    constructor
    · ring_nf
    · trivial
  · intro lb ub v s out c h
    unfold write_length_determinant at h
    rcases lb with _ | lb0 <;> rcases ub with _ | ub0
    · rw [if_neg (by simp), if_neg (by simp)] at h
      by_cases h127 : v ≤ LENGTH_127
      · rw [if_pos h127] at h
        simp at h
      · rw [if_neg h127] at h
        by_cases h16k : v < LENGTH_16K
        · rw [if_pos h16k] at h
          simp at h
        · rw [if_neg h16k] at h
          simp only [Except.ok.injEq, Prod.mk.injEq, Option.some.injEq] at h
          refine ⟨rfl, rfl, by simp only [LENGTH_16K] at h16k; omega, ?_⟩
          rw [← h.1]
          simp only [LENGTH_16K, MAX_FRAGMENTS]
          ring
    · by_cases hub : LENGTH_64K ≤ ub0
      · rw [if_pos (by simp [hub])] at h
        rw [if_neg (by simp)] at h
        by_cases hlow : v < (none : Option Nat).getD 0
        · simp at hlow
        · rw [if_neg hlow] at h
          simp at h
      · rw [if_neg (by simp [Option.getD]; omega),
          if_pos (by simp [Option.getD]; omega)] at h
        simp at h
    · -- lb = some lb0, ub = none: the 11.9.4.2 branch is taken and
      -- returns `none` or an error in every case
      rw [if_pos (by
        constructor
        · left
          rfl
        · simp only [Option.getD_some, Option.getD_none, i64_max_u, LENGTH_64K]
          norm_num)] at h
      rw [if_neg (by simp)] at h
      by_cases hlow : v < lb0
      · rw [if_pos (by simpa using hlow)] at h
        simp at h
      · rw [if_neg (by simpa using hlow)] at h
        simp at h
    · by_cases hub : LENGTH_64K ≤ ub0
      · rw [if_pos (by simp [hub])] at h
        by_cases heq : lb0 = ub0
        · rw [if_pos (by simp [heq])] at h
          simp at h
        · rw [if_neg (by simp [heq])] at h
          by_cases hlow : v < lb0
          · rw [if_pos (by simpa using hlow)] at h
            simp at h
          · rw [if_neg (by simpa using hlow)] at h
            simp at h
      · rw [if_neg (by simp [Option.getD]; omega),
          if_pos (by simp [Option.getD]; omega)] at h
        simp at h

theorem C5_witness :
    (16384 : Nat) ≤ 49152 ∧
    write_length_determinant none none 49152 [] =
      .ok (some (16384 * Nat.min (49152 / 16384 % 256) 4),
        write_bits_nat 6 (Nat.min (49152 / 16384 % 256) 4)
          (write_bit true (write_bit true []))) :=
  ⟨by norm_num, C5_chunk_return_contract.1 49152 [] (by norm_num)⟩

theorem C5_counterexample :
    write_length_determinant none none 4194304 [] =
      .ok (some 0, [true, true, false, false, false, false, false, false]) ∧
    (16384 : Nat) * Nat.min (4194304 / 16384) 4 = 65536 ∧ (0 : Nat) ≠ 65536 :=
  ⟨rfl, by decide, by decide⟩

/-- C10 (amended): when `ub ≤ lb` and `lb - ub ≤ 2 ^ 63` — the `i64`
subtraction `ub - lb` does not overflow, the boundary `lb - ub = 2 ^ 63`
yielding the representable `i64::MIN` — `write_constrained_whole_number`
returns `Ok` and writes no bits, for every value, in or out of range;
when `lb - ub > 2 ^ 63` (for `i64` inputs) the subtraction wraps to a
positive range, the check runs, and every value is rejected with
`ValueNotInRange`. -/
theorem C10_degenerate_range_accepts (lb ub v : Int) (s : BitStream) :
    (ub ≤ lb → lb - ub ≤ 2 ^ 63 →
      write_constrained_whole_number lb ub v s = .ok s) ∧
    (-(2 ^ 63 : Int) ≤ ub → lb < 2 ^ 63 → 2 ^ 63 < lb - ub →
      write_constrained_whole_number lb ub v s =
        .error (.ValueNotInRange v lb ub)) := by
  constructor
  · intro hle hno
    have hwrap : wrap_i64 (ub - lb) = ub - lb := by
      unfold wrap_i64
      rw [Int.emod_eq_of_lt (by omega) (by omega)]
      ring
    unfold write_constrained_whole_number
    rw [hwrap, if_neg (by omega : ¬ (0 : Int) < ub - lb)]
  · intro hub hlb hgt
    have hwrap : wrap_i64 (ub - lb) = ub - lb + 2 ^ 64 := by
      unfold wrap_i64
      have h1 : (ub - lb + 2 ^ 63 + 2 ^ 64 * 1) % (2 ^ 64 : Int) =
          (ub - lb + 2 ^ 63) % 2 ^ 64 :=
        Int.add_mul_emod_self_left (ub - lb + 2 ^ 63) (2 ^ 64) 1
      rw [← h1, mul_one, Int.emod_eq_of_lt (by omega) (by omega)]
      ring
    unfold write_constrained_whole_number
    rw [hwrap, if_pos (by omega : (0 : Int) < ub - lb + 2 ^ 64),
      if_pos (by omega : v < lb ∨ ub < v)]

theorem C10_witness :
    write_constrained_whole_number 5 5 100 [] = .ok [] :=
  (C10_degenerate_range_accepts 5 5 100 []).1 (by norm_num) (by norm_num)

theorem C10_counterexample :
    write_constrained_whole_number (2 ^ 63 - 1) (-(2 ^ 63)) 0 [] =
      .error (.ValueNotInRange 0 (2 ^ 63 - 1) (-(2 ^ 63))) := by
  have hwrap : wrap_i64 ((-(2 ^ 63) : Int) - (2 ^ 63 - 1)) = 1 := by decide
  unfold write_constrained_whole_number
  rw [hwrap, if_pos (by norm_num : (0 : Int) < 1),
    if_pos (by norm_num : (0 : Int) < 2 ^ 63 - 1 ∨ (-(2 ^ 63) : Int) < 0)]

/-- C9 (amended): `with_read_position_at` always returns exactly the
closure's result, and restores the read position to its pre-call value
provided the closure leaves the visible length at least that value;
a closure that shrinks the visible length below the original position
makes the final clamped `set_pos` land lower (see the counterexample). -/
theorem C9_with_read_position_amended {T : Type} (p : Nat)
    (f : ScopedState → T × ScopedState) (s : ScopedState) :
    (with_read_position_at p f s).1 = (f ((s.set_pos p).2)).1 ∧
    (s.pos ≤ (f ((s.set_pos p).2)).2.len →
      (with_read_position_at p f s).2.pos = s.pos) := by
  constructor
  · simp [with_read_position_at]
  · intro h
    simp only [with_read_position_at, ScopedState.set_pos]
    exact Nat.min_eq_left h

theorem C9_witness :
    (with_read_position_at 2 (fun st => (st.pos, st))
        ⟨List.replicate 8 false, 5, 8⟩).2.pos = 5 :=
  (C9_with_read_position_amended 2 (fun st => (st.pos, st))
    ⟨List.replicate 8 false, 5, 8⟩).2 (by decide)

theorem C9_counterexample :
    ¬ ((with_read_position_at 0 (fun st => ((), (st.set_len 0).2))
        (⟨List.replicate 8 false, 5, 8⟩ : ScopedState)).2.pos =
      (⟨List.replicate 8 false, 5, 8⟩ : ScopedState).pos) := by
  decide

theorem read_bits_list_exact (l : BitStream) : read_bits_list l.length l = .ok (l, []) := by
  have h := read_bits_list_append l []
  rwa [List.append_nil] at h

theorem except_bind_error {α β : Type} (e : Err) (f : α → Except Err β) :
    ((Except.error e : Except Err α) >>= f) = .error e := rfl

/-- Encoding a bitstring of exactly 16384 bits with no bounds and not
extensible: the 16.11 length determinant takes the chunk branch
(multiplier 1), the 16384 payload bits follow, and — since
`length > MAX_FRAGMENTS_SIZE` is false — the fragmentation loop that
would emit the terminating short determinant never runs. -/
theorem write_bitstring_16k_eval (src : List Bool) (hlen : src.length = 16384) :
    write_bitstring none none false src 0 16384 [] =
      .ok ((true :: true :: natToBits 6 1) ++ src) := by
  have hdet : write_length_determinant none none 16384 [] =
      .ok (some 16384, true :: true :: natToBits 6 1) := rfl
  have hmin : Nat.min MAX_FRAGMENTS_SIZE 16384 = 16384 := by decide
  have htake : (src.drop 0).take 16384 = src := by
    rw [List.drop_zero, ← hlen, List.take_length]
  simp only [write_bitstring, Option.getD_none, Option.isSome_none, hdet,
    except_bind_ok, hmin, write_bits_with_offset_len, htake]
  norm_num [MAX_FRAGMENTS_SIZE, FRAGMENT_SIZE, MAX_FRAGMENTS, i64_max_u]
  rw [hdet, except_bind_ok]
  simp

/-- Decoding the bits produced by `write_bitstring_16k_eval`: the length
determinant announces a 16384-bit chunk, the payload is read, and the
reader then demands a continuation determinant from the exhausted stream,
failing with `EndOfStream`. -/
theorem read_bitstring_16k_eval (src : List Bool) (hlen : src.length = 16384) :
    read_bitstring none none false ((true :: true :: natToBits 6 1) ++ src) =
      .error .EndOfStream := by
  have hdet : read_length_determinant none none ((true :: true :: natToBits 6 1) ++ src) =
      .ok (16384, src) := by
    rw [read_length_determinant_chunk (by norm_num : (1 : Nat) < 64) src]
    rfl
  have hread : read_bits_list 16384 src = .ok (src, []) := by
    rw [← hlen]
    exact read_bits_list_exact src
  have hloop : ∀ (buf : List Bool) (byl : Nat),
      read_bitstring_loop 1 buf 16384 byl [] = .error .EndOfStream := by
    intro buf byl
    rfl
  simp only [read_bitstring, Option.getD_none, Option.isSome_none, hdet,
    except_bind_ok, hread, hloop]
  norm_num [i64_max_u, LENGTH_16K]
  exact hloop _ _

/-- C2: the fragmented bitstring path does not round-trip: already at the
minimal fragmented length `L = 16384` (no size bounds, not extensible) the
writer announces a 16384-bit chunk and emits the payload but never writes
the terminating length determinant, so the reader — which after a chunk
length `≥ 16K` loops for the next determinant — fails with `EndOfStream`
instead of returning the payload. -/
theorem C2_bitstring_fragmentation_failure :
    write_bitstring none none false (List.replicate 16384 false) 0 16384 [] =
      .ok ((true :: true :: natToBits 6 1) ++ List.replicate 16384 false) ∧
    read_bitstring none none false
      ((true :: true :: natToBits 6 1) ++ List.replicate 16384 false) =
      .error .EndOfStream :=
  ⟨write_bitstring_16k_eval _ (by rw [List.length_replicate]),
    read_bitstring_16k_eval _ (by rw [List.length_replicate])⟩

end Asn1rs
